import Mathlib

/-!
Shallow embedding of the `SentencingFHE` Solidity contract
(`src/contracts/SentencingFHE.sol`) and proofs of the specification claims.

Modelling conventions:

* Solidity mappings are modelled as association lists with a total lookup
  that returns the mapping's default value (empty struct / `0`) when the key
  is absent, matching EVM storage semantics.
* `euint32` ciphertext handles are opaque; they are modelled as `Nat`
  identifiers where their bit pattern is irrelevant (the encrypted case
  fields) and the handle value `0` is the uninitialized handle
  (`FHE.isInitialized` is `handle ≠ 0` in the fhevm library).
* The per-judge homomorphic accumulator `encryptedJudgeStats` is modelled by
  its decrypted content: `FHE.asEuint32(0)` is `0`, `FHE.add(x, 1)` is
  integer `x + 1` (the claims fix this model explicitly; the real `euint32`
  add would wrap at `2 ^ 32`).  Absence from the association list models an
  uninitialized (never written) accumulator slot.
* `keccak256(abi.encodePacked(s))` on strings is used by the contract only
  as a string-equality test and as a derived lookup key; it is modelled by
  the injective encoding `hashStr` (collision-freeness abstraction), and the
  hash-based string comparisons in the query functions are modelled as
  string equality.
* A reverting Solidity call is `Except.error e`; EVM rollback semantics mean
  an erroring call leaves the pre-state untouched, which `applyTx` makes
  explicit.
* The decryption-oracle callbacks receive `cleartexts` already decoded: the
  `abi.decode` of `analyzeCase` yields `(charge, sentence, judgeId)` and the
  one of `decryptJudgeStats` yields a single count; the decoded values are
  passed as arguments, and `FHE.checkSignatures` is modelled by a `proofOk`
  flag (the oracle's signature check either passes or reverts the call).
-/

namespace SentencingFHE

/-- Error taxonomy: the contract's revert reasons ("Invalid request",
"Already analyzed", "Judge not found") together with the spec's taxonomy
(`NotFound`, `ProofInvalid`).  `NotFound` models the "Judge not found"
revert. -/
inductive Err where
  | NotFound
  | AlreadyAnalyzed
  | InvalidRequest
  | ProofInvalid
deriving DecidableEq, Repr

/-- The `DecryptedCase` struct of the contract. -/
structure DecryptedCase where
  charge : String
  sentence : Nat
  judgeId : String
  isAnalyzed : Bool
deriving DecidableEq, Repr

/-- The `EncryptedCase` struct of the contract; the three encrypted fields
are opaque ciphertext handles. -/
structure EncryptedCase where
  id : Nat
  encryptedCharge : Nat
  encryptedSentence : Nat
  encryptedJudgeId : Nat
  timestamp : Nat
deriving DecidableEq, Repr

/-- Lookup in an association list modelling a Solidity mapping. -/
def amGet? {κ α : Type} [DecidableEq κ] (m : List (κ × α)) (k : κ) : Option α :=
  match m with
  | [] => none
  | (a, b) :: rest => if a = k then some b else amGet? rest k

/-- Write to an association list modelling a Solidity mapping: replaces the
entry for the key if present, otherwise appends a new entry. -/
def amSet {κ α : Type} [DecidableEq κ] (m : List (κ × α)) (k : κ) (v : α) :
    List (κ × α) :=
  match m with
  | [] => [(k, v)]
  | (a, b) :: rest => if a = k then (k, v) :: rest else (a, b) :: amSet rest k v

/-- The keys of an association list are pairwise distinct. -/
def keysNodup {κ α : Type} (m : List (κ × α)) : Prop :=
  (m.map Prod.fst).Nodup

/-- The storage of the `SentencingFHE` contract.  `caseReqIds` is ghost
state, not contract storage: it records which oracle request ids were issued
by `FHE.requestDecryption` for a case-analysis request (as opposed to a
judge-stats request), which determines for which request ids the oracle can
ever deliver a callback, with a valid signature, whose cleartexts decode as
`(string, uint256, string)`. -/
structure ContractState where
  caseCount : Nat
  encryptedCases : List (Nat × EncryptedCase)
  decryptedCases : List (Nat × DecryptedCase)
  encryptedJudgeStats : List (String × Nat)
  judgeList : List String
  requestToCaseId : List (Nat × Nat)
  caseReqIds : List Nat
deriving DecidableEq, Repr

/-- The contract's state at deployment: all mappings empty, `caseCount = 0`. -/
def initialState : ContractState :=
  { caseCount := 0
    encryptedCases := []
    decryptedCases := []
    encryptedJudgeStats := []
    judgeList := []
    requestToCaseId := []
    caseReqIds := [] }

/-- Default value of a `DecryptedCase` storage slot. -/
def defaultDecrypted : DecryptedCase :=
  { charge := "", sentence := 0, judgeId := "", isAnalyzed := false }

/-- Default value of an `EncryptedCase` storage slot (all handles are the
uninitialized handle `0`). -/
def defaultEncrypted : EncryptedCase :=
  { id := 0, encryptedCharge := 0, encryptedSentence := 0,
    encryptedJudgeId := 0, timestamp := 0 }

/-- Total read of `decryptedCases[i]` (mapping default semantics). -/
def lookupCase (st : ContractState) (i : Nat) : DecryptedCase :=
  (amGet? st.decryptedCases i).getD defaultDecrypted

/-- Total read of `encryptedCases[i]` (mapping default semantics). -/
def lookupEnc (st : ContractState) (i : Nat) : EncryptedCase :=
  (amGet? st.encryptedCases i).getD defaultEncrypted

/-- Total read of `requestToCaseId[r]` (mapping default semantics). -/
def lookupReq (st : ContractState) (r : Nat) : Nat :=
  (amGet? st.requestToCaseId r).getD 0

/-- Model of `keccak256(abi.encodePacked(s))` for a string `s`: an injective
encoding of the character list into a positive natural number (collision
freeness of keccak is assumed, and the contract only uses the hash as an
equality test and a derived map key). -/
def hashStr (s : String) : Nat :=
  s.data.foldl (fun a c => a * 1114112 + c.toNat) 1

/-- The contract's `submitEncryptedCase`: always succeeds, assigns the next
sequential id, stores the encrypted case and an all-default decrypted
projection. -/
def submitEncryptedCase (st : ContractState)
    (encryptedCharge encryptedSentence encryptedJudgeId ts : Nat) :
    ContractState :=
  let newId := st.caseCount + 1
  { st with
    caseCount := newId
    encryptedCases := amSet st.encryptedCases newId
      { id := newId, encryptedCharge := encryptedCharge,
        encryptedSentence := encryptedSentence,
        encryptedJudgeId := encryptedJudgeId, timestamp := ts }
    decryptedCases := amSet st.decryptedCases newId defaultDecrypted }

/-- The contract's `requestSentencingAnalysis`: the only guard is
`require(!decryptedCases[caseId].isAnalyzed)`; there is no existence check
for `caseId`.  The oracle-returned request id is a parameter; on success the
pending entry `requestToCaseId[reqId] = caseId` is recorded. -/
def requestSentencingAnalysis (st : ContractState) (caseId reqId : Nat) :
    Except Err ContractState :=
  if (lookupCase st caseId).isAnalyzed then .error .AlreadyAnalyzed
  else .ok { st with requestToCaseId := amSet st.requestToCaseId reqId caseId }

/-- The storage writes of a successful `analyzeCase` callback: the decrypted
projection of the target case is written (with `isAnalyzed = true`), and the
judge accumulator is updated — if uninitialized it is first set to encrypted
zero and the judge is pushed onto `judgeList`, then encrypted one is
homomorphically added to the (re-read) accumulator. -/
def stAfterAnalyze (st : ContractState) (reqId : Nat)
    (charge : String) (sentence : Nat) (judgeId : String) : ContractState :=
  let caseId := lookupReq st reqId
  let dc2 := amSet st.decryptedCases caseId
    { charge := charge, sentence := sentence, judgeId := judgeId,
      isAnalyzed := true }
  if (amGet? st.encryptedJudgeStats judgeId).isSome then
    { st with
      decryptedCases := dc2
      encryptedJudgeStats := amSet st.encryptedJudgeStats judgeId
        ((amGet? st.encryptedJudgeStats judgeId).getD 0 + 1) }
  else
    let stats1 := amSet st.encryptedJudgeStats judgeId 0
    { st with
      decryptedCases := dc2
      encryptedJudgeStats := amSet stats1 judgeId
        ((amGet? stats1 judgeId).getD 0 + 1)
      judgeList := st.judgeList ++ [judgeId] }

/-- The contract's `analyzeCase` oracle callback.  Guards in source order:
`require(caseId != 0)` ("Invalid request"), `require(!dCase.isAnalyzed)`
("Already analyzed"), `FHE.checkSignatures` (modelled by `proofOk`).  On
success it performs the writes of `stAfterAnalyze`.  The pending entry is
never deleted. -/
def analyzeCase (st : ContractState) (reqId : Nat)
    (charge : String) (sentence : Nat) (judgeId : String)
    (proofOk : Bool) : Except Err ContractState :=
  let caseId := lookupReq st reqId
  if caseId = 0 then .error .InvalidRequest
  else if (lookupCase st caseId).isAnalyzed then .error .AlreadyAnalyzed
  else if proofOk = false then .error .ProofInvalid
  else .ok (stAfterAnalyze st reqId charge sentence judgeId)

/-- The contract's `getDecryptedCase` view: a total read with no guard. -/
def getDecryptedCase (st : ContractState) (caseId : Nat) :
    String × Nat × String × Bool :=
  let c := lookupCase st caseId
  (c.charge, c.sentence, c.judgeId, c.isAnalyzed)

/-- The contract's `getEncryptedJudgeStats` view, modelled by the decrypted
content of the accumulator (`none` = uninitialized handle). -/
def getEncryptedJudgeStats (st : ContractState) (judgeId : String) :
    Option Nat :=
  amGet? st.encryptedJudgeStats judgeId

/-- The contract's `requestJudgeStatsDecryption`: reverts "Judge not found"
when the accumulator handle is uninitialized; otherwise records the pending
entry `requestToCaseId[reqId] = uint256(keccak256(judgeId))`. -/
def requestJudgeStatsDecryption (st : ContractState) (judgeId : String)
    (reqId : Nat) : Except Err ContractState :=
  match amGet? st.encryptedJudgeStats judgeId with
  | none => .error .NotFound
  | some _ =>
      .ok { st with
        requestToCaseId := amSet st.requestToCaseId reqId (hashStr judgeId) }

/-- The contract's `getJudgeFromHash`: linear scan of `judgeList` for a
judge whose hash matches; `none` models the "Judge not found" revert. -/
def getJudgeFromHash (st : ContractState) (h : Nat) : Option String :=
  st.judgeList.find? (fun j => hashStr j = h)

/-- The contract's `decryptJudgeStats` oracle callback: resolves the judge
from the stored hash (reverting "Judge not found" on failure), verifies the
proof, decodes the count `n` from the cleartexts into a local variable, and
then simply returns: the decoded count is neither stored nor returned and
the contract state is left unchanged. -/
def decryptJudgeStats (st : ContractState) (reqId : Nat) (n : Nat)
    (proofOk : Bool) : Except Err ContractState :=
  match getJudgeFromHash st (lookupReq st reqId) with
  | none => .error .NotFound
  | some _ =>
      if proofOk = false then .error .ProofInvalid
      else
        let _decodedCount := n
        .ok st

/-- `type(uint256).max`, the sentinel `calculateSentencingStats` initializes
`minSentence` with. -/
def UMAX : Nat := 2 ^ 256 - 1

/-- The list of assigned case ids `1 .. caseCount`, the range of the query
loops. -/
def caseIds (st : ContractState) : List Nat :=
  (List.range st.caseCount).map (fun i => i + 1)

/-- The filter condition of the `calculateSentencingStats` loop:
`decryptedCases[i].isAnalyzed && keccak256(charge) == keccak256(chargeType)`
(hash equality modelled as string equality). -/
def chargeHit (st : ContractState) (ct : String) (i : Nat) : Bool :=
  (lookupCase st i).isAnalyzed && (lookupCase st i).charge == ct

/-- The filter condition of the inner `detectSentencingDisparities` loop:
the charge condition together with the judge-id hash equality. -/
def judgeHit (st : ContractState) (ct jid : String) (i : Nat) : Bool :=
  chargeHit st ct i && (lookupCase st i).judgeId == jid

/-- One iteration of the `calculateSentencingStats` loop body, accumulating
`(total, count, minSentence, maxSentence)`. -/
def statsStep (st : ContractState) (ct : String)
    (acc : Nat × Nat × Nat × Nat) (i : Nat) : Nat × Nat × Nat × Nat :=
  if chargeHit st ct i then
    (acc.1 + (lookupCase st i).sentence, acc.2.1 + 1,
     if (lookupCase st i).sentence < acc.2.2.1 then
       (lookupCase st i).sentence else acc.2.2.1,
     if (lookupCase st i).sentence > acc.2.2.2 then
       (lookupCase st i).sentence else acc.2.2.2)
  else acc

/-- The contract's `calculateSentencingStats`: scans ids `1 .. caseCount`,
accumulating over analyzed cases whose charge hash matches; returns the
triple `(avgSentence, minSentence, maxSentence)` with `min` initialized to
`type(uint256).max`, `max` to `0`, and `avg = total / count` (`0` when
`count = 0`).  The contract returns no count component. -/
def calculateSentencingStats (st : ContractState) (ct : String) :
    Nat × Nat × Nat :=
  let r := (caseIds st).foldl (statsStep st ct) (0, 0, UMAX, 0)
  (if 0 < r.2.1 then r.1 / r.2.1 else 0, r.2.2.1, r.2.2.2)

/-- One iteration of the inner `detectSentencingDisparities` loop body,
accumulating `(total, count)` for one requested judge. -/
def dispStep (st : ContractState) (ct jid : String)
    (acc : Nat × Nat) (i : Nat) : Nat × Nat :=
  if judgeHit st ct jid i then
    (acc.1 + (lookupCase st i).sentence, acc.2 + 1)
  else acc

/-- The contract's `detectSentencingDisparities`: for each requested judge
id, in input order, scans all cases matching both the charge type and the
judge and returns `(judgeId, total / count)` (`0` when no case matches). -/
def detectSentencingDisparities (st : ContractState) (ct : String)
    (judgeIds : List String) : List (String × Nat) :=
  judgeIds.map (fun jid =>
    let r := (caseIds st).foldl (dispStep st ct jid) (0, 0)
    (jid, if 0 < r.2 then r.1 / r.2 else 0))

/-- EVM transaction semantics for a contract call: a revert
(`Except.error`) rolls every storage write back, so the post-state of an
erroring call is the pre-state. -/
def applyTx (st : ContractState) (r : Except Err ContractState) :
    ContractState :=
  match r with
  | .ok st2 => st2
  | .error _ => st

/-- Derived query specification: the multiset (as a list in scan order) of
sentences of analyzed cases whose charge equals `ct`. -/
def matchingSentences (st : ContractState) (ct : String) : List Nat :=
  (caseIds st).filterMap (fun i =>
    if chargeHit st ct i then some (lookupCase st i).sentence else none)

/-- Derived query specification: the sentences of analyzed cases matching
both charge `ct` and judge `jid`, in scan order. -/
def judgeSentences (st : ContractState) (ct jid : String) : List Nat :=
  (caseIds st).filterMap (fun i =>
    if judgeHit st ct jid i then some (lookupCase st i).sentence else none)

/-- Floor average of a list of sentences, `0` for the empty list. -/
def avgOf (l : List Nat) : Nat :=
  if 0 < l.length then l.sum / l.length else 0

/-- Oracle acceptance condition for a case-analysis decryption request: all
three submitted ciphertext handles are initialized.  `FHE.requestDecryption`
"may fail only for malformed handles" (spec), and the uninitialized handle
`0` is the malformed handle a never-submitted case would supply; the oracle
can never produce a validly signed cleartext for a nonexistent
ciphertext. -/
def handlesOk (st : ContractState) (caseId : Nat) : Prop :=
  (lookupEnc st caseId).encryptedCharge ≠ 0 ∧
  (lookupEnc st caseId).encryptedSentence ≠ 0 ∧
  (lookupEnc st caseId).encryptedJudgeId ≠ 0

instance (st : ContractState) (caseId : Nat) :
    Decidable (handlesOk st caseId) := by
  unfold handlesOk; infer_instance

/-- One transition of the contract protocol.  The oracle model supplies the
side conditions the contract delegates to the FHE gateway: request ids are
fresh (never reused), a decryption request is only accepted for initialized
handles, and a callback whose cleartexts decode as `(string, uint256,
string)` with a valid signature only exists for request ids issued for a
case-analysis request (ghost list `caseReqIds`). -/
inductive Step : ContractState → ContractState → Prop where
  | submit (st : ContractState) (hc hs hj ts : Nat) (st2 : ContractState)
      (heq : st2 = submitEncryptedCase st hc hs hj ts) :
      Step st st2
  | requestAnalysis (st : ContractState) (caseId reqId : Nat)
      (stOk st2 : ContractState)
      (hfresh : lookupReq st reqId = 0)
      (hhandles : handlesOk st caseId)
      (hrun : requestSentencingAnalysis st caseId reqId = .ok stOk)
      (heq : st2 = { stOk with caseReqIds := reqId :: stOk.caseReqIds }) :
      Step st st2
  | analyze (st : ContractState) (reqId : Nat) (charge : String)
      (sentence : Nat) (judgeId : String) (st2 : ContractState)
      (hreq : reqId ∈ st.caseReqIds)
      (hrun : analyzeCase st reqId charge sentence judgeId true = .ok st2) :
      Step st st2
  | statsRequest (st : ContractState) (judgeId : String) (reqId : Nat)
      (st2 : ContractState)
      (hfresh : lookupReq st reqId = 0)
      (hrun : requestJudgeStatsDecryption st judgeId reqId = .ok st2) :
      Step st st2
  | statsFinalize (st : ContractState) (reqId n : Nat)
      (st2 : ContractState)
      (hrun : decryptJudgeStats st reqId n true = .ok st2) :
      Step st st2

/-- Reachability of a contract state from the deployment state under the
protocol transitions. -/
inductive Reachable : ContractState → Prop where
  | init : Reachable initialState
  | step {st st2 : ContractState} (h : Reachable st) (hs : Step st st2) :
      Reachable st2

/-- Sum over all judges of the (decrypted) accumulator values. -/
def sumJudges (st : ContractState) : Nat :=
  (st.judgeList.map
    (fun j => (amGet? st.encryptedJudgeStats j).getD 0)).sum

/-- Number of analyzed entries in an association list of decrypted cases. -/
def countA (m : List (Nat × DecryptedCase)) : Nat :=
  (m.filter (fun p => p.2.isAnalyzed)).length

/-- Number of case records whose decrypted projection is analyzed. -/
def countAnalyzed (st : ContractState) : Nat :=
  countA st.decryptedCases

section AssocMap

variable {κ α : Type} [DecidableEq κ]

theorem amGet?_amSet_self (m : List (κ × α)) (k : κ) (v : α) :
    amGet? (amSet m k v) k = some v := by
  induction m with
  | nil => simp [amSet, amGet?]
  | cons p rest ih =>
      obtain ⟨a, b⟩ := p
      by_cases h : a = k
      · subst h; simp [amSet, amGet?]
      · simp [amSet, amGet?, h, ih]

theorem amGet?_amSet_ne (m : List (κ × α)) (k k' : κ) (v : α)
    (h : k' ≠ k) : amGet? (amSet m k v) k' = amGet? m k' := by
  have hne : ¬(k = k') := fun hh => h hh.symm
  induction m with
  | nil =>
      simp only [amSet, amGet?]
      rw [if_neg hne]
  | cons p rest ih =>
      obtain ⟨a, b⟩ := p
      by_cases ha : a = k
      · simp only [amSet]
        rw [if_pos ha]
        simp only [amGet?]
        rw [if_neg hne, if_neg (ha ▸ hne : ¬(a = k'))]
      · simp only [amSet]
        rw [if_neg ha]
        simp only [amGet?]
        by_cases hak : a = k'
        · rw [if_pos hak, if_pos hak]
        · rw [if_neg hak, if_neg hak]
          exact ih

theorem amSet_amSet_self (m : List (κ × α)) (k : κ) (v w : α) :
    amSet (amSet m k v) k w = amSet m k w := by
  induction m with
  | nil => simp [amSet]
  | cons p rest ih =>
      obtain ⟨a, b⟩ := p
      by_cases ha : a = k
      · simp [amSet, ha]
      · simp only [amSet]
        rw [if_neg ha]
        simp only [amSet]
        rw [if_neg ha, ih, if_neg ha]

theorem mem_amSet (m : List (κ × α)) (k : κ) (v : α) (p : κ × α) :
    p ∈ amSet m k v → p = (k, v) ∨ p ∈ m := by
  induction m with
  | nil =>
      intro h
      simp only [amSet, List.mem_singleton] at h
      exact Or.inl h
  | cons q rest ih =>
      intro h
      obtain ⟨a, b⟩ := q
      simp only [amSet] at h
      by_cases ha : a = k
      · rw [if_pos ha] at h
        rcases List.mem_cons.mp h with h1 | h1
        · exact Or.inl h1
        · exact Or.inr (List.mem_cons_of_mem _ h1)
      · rw [if_neg ha] at h
        rcases List.mem_cons.mp h with h1 | h1
        · exact Or.inr (List.mem_cons.mpr (Or.inl h1))
        · rcases ih h1 with h2 | h2
          · exact Or.inl h2
          · exact Or.inr (List.mem_cons_of_mem _ h2)

theorem self_mem_amSet (m : List (κ × α)) (k : κ) (v : α) :
    (k, v) ∈ amSet m k v := by
  induction m with
  | nil => simp [amSet]
  | cons q rest ih =>
      obtain ⟨a, b⟩ := q
      simp only [amSet]
      by_cases ha : a = k
      · rw [if_pos ha]
        exact List.mem_cons_self _ _
      · rw [if_neg ha]
        exact List.mem_cons_of_mem _ ih

theorem amGet?_eq_some_mem (m : List (κ × α)) (k : κ) (v : α) :
    amGet? m k = some v → (k, v) ∈ m := by
  induction m with
  | nil => intro h; simp [amGet?] at h
  | cons q rest ih =>
      intro h
      obtain ⟨a, b⟩ := q
      simp only [amGet?] at h
      by_cases ha : a = k
      · rw [if_pos ha] at h
        have hv : b = v := Option.some.inj h
        exact List.mem_cons.mpr (Or.inl (by rw [ha, hv]))
      · rw [if_neg ha] at h
        exact List.mem_cons_of_mem _ (ih h)

theorem amGet?_eq_none_iff (m : List (κ × α)) (k : κ) :
    amGet? m k = none ↔ k ∉ m.map Prod.fst := by
  induction m with
  | nil => simp [amGet?]
  | cons q rest ih =>
      obtain ⟨a, b⟩ := q
      simp only [amGet?, List.map_cons, List.mem_cons]
      by_cases ha : a = k
      · rw [if_pos ha]
        simp [ha]
      · rw [if_neg ha]
        rw [ih]
        constructor
        · intro h hmem
          rcases hmem with h1 | h1
          · exact ha h1.symm
          · exact h h1
        · intro h hm
          exact h (Or.inr hm)

theorem amGet?_eq_of_mem_nodup (m : List (κ × α)) (k : κ) (v : α) :
    keysNodup m → (k, v) ∈ m → amGet? m k = some v := by
  induction m with
  | nil => intro _ h; simp at h
  | cons q rest ih =>
      intro hnd h
      obtain ⟨a, b⟩ := q
      unfold keysNodup at hnd
      simp only [List.map_cons, List.nodup_cons] at hnd
      rcases List.mem_cons.mp h with h1 | h1
      · have hk : k = a := congrArg Prod.fst h1
        have hv : v = b := congrArg Prod.snd h1
        simp only [amGet?]
        rw [if_pos hk.symm, hv]
      · by_cases ha : a = k
        · exfalso
          apply hnd.1
          rw [ha]
          exact List.mem_map.mpr ⟨(k, v), h1, rfl⟩
        · simp only [amGet?]
          rw [if_neg ha]
          exact ih hnd.2 h1

theorem amSet_eq_append (m : List (κ × α)) (k : κ) (v : α) :
    amGet? m k = none → amSet m k v = m ++ [(k, v)] := by
  induction m with
  | nil => intro _; simp [amSet]
  | cons q rest ih =>
      intro h
      obtain ⟨a, b⟩ := q
      simp only [amGet?] at h
      by_cases ha : a = k
      · rw [if_pos ha] at h
        exact absurd h (by simp)
      · rw [if_neg ha] at h
        simp only [amSet]
        rw [if_neg ha, ih h]
        simp

theorem keys_amSet_of_some (m : List (κ × α)) (k : κ) (v w : α) :
    amGet? m k = some w →
    (amSet m k v).map Prod.fst = m.map Prod.fst := by
  induction m with
  | nil => intro h; simp [amGet?] at h
  | cons q rest ih =>
      intro h
      obtain ⟨a, b⟩ := q
      simp only [amGet?] at h
      by_cases ha : a = k
      · simp only [amSet]
        rw [if_pos ha]
        simp [ha]
      · rw [if_neg ha] at h
        simp only [amSet]
        rw [if_neg ha]
        simp only [List.map_cons]
        rw [ih h]

theorem keysNodup_amSet (m : List (κ × α)) (k : κ) (v : α)
    (hnd : keysNodup m) : keysNodup (amSet m k v) := by
  unfold keysNodup at *
  cases hc : amGet? m k with
  | none =>
      rw [amSet_eq_append m k v hc]
      simp only [List.map_append, List.map_cons, List.map_nil]
      refine List.Nodup.append hnd (List.nodup_singleton k) ?_
      intro x hx hx2
      rw [List.mem_singleton] at hx2
      subst hx2
      exact (amGet?_eq_none_iff m x).mp hc hx
  | some w =>
      rw [keys_amSet_of_some m k v w hc]
      exact hnd

theorem mem_amSet_iff (m : List (κ × α)) (k : κ) (v : α) (p : κ × α) :
    keysNodup m →
    (p ∈ amSet m k v ↔ p = (k, v) ∨ (p ∈ m ∧ p.1 ≠ k)) := by
  induction m with
  | nil => intro _; simp [amSet]
  | cons q rest ih =>
      intro hnd
      obtain ⟨a, b⟩ := q
      unfold keysNodup at hnd
      simp only [List.map_cons, List.nodup_cons] at hnd
      have ihr := ih hnd.2
      simp only [amSet]
      by_cases ha : a = k
      · rw [if_pos ha]
        simp only [List.mem_cons]
        constructor
        · rintro (h1 | h1)
          · exact Or.inl h1
          · refine Or.inr ⟨Or.inr h1, fun hpk => ?_⟩
            apply hnd.1
            rw [ha, ← hpk]
            exact List.mem_map.mpr ⟨p, h1, rfl⟩
        · rintro (h1 | ⟨h1 | h1, hpk⟩)
          · exact Or.inl h1
          · exact absurd (by rw [h1]; exact ha) hpk
          · exact Or.inr h1
      · rw [if_neg ha]
        simp only [List.mem_cons, ihr]
        constructor
        · rintro (h1 | h1 | ⟨h1, hpk⟩)
          · exact Or.inr ⟨Or.inl h1, by rw [h1]; exact ha⟩
          · exact Or.inl h1
          · exact Or.inr ⟨Or.inr h1, hpk⟩
        · rintro (h1 | ⟨h1 | h1, hpk⟩)
          · exact Or.inr (Or.inl h1)
          · exact Or.inl h1
          · exact Or.inr (Or.inr ⟨h1, hpk⟩)

end AssocMap

theorem countA_cons (q : Nat × DecryptedCase)
    (rest : List (Nat × DecryptedCase)) :
    countA (q :: rest) = (if q.2.isAnalyzed then 1 else 0) + countA rest := by
  by_cases h : q.2.isAnalyzed
  · simp [countA, List.filter_cons, h]
    omega
  · simp [countA, List.filter_cons, h]

theorem countA_amSet (m : List (Nat × DecryptedCase)) (k : Nat)
    (v : DecryptedCase) :
    (∀ w, amGet? m k = some w → w.isAnalyzed = false) →
    countA (amSet m k v) = countA m + (if v.isAnalyzed then 1 else 0) := by
  induction m with
  | nil =>
      intro _
      have h1 : amSet ([] : List (Nat × DecryptedCase)) k v = [(k, v)] := rfl
      rw [h1, countA_cons]
      simp [countA]
  | cons q rest ih =>
      intro hold
      obtain ⟨a, b⟩ := q
      by_cases ha : a = k
      · have hb : b.isAnalyzed = false := hold b (by simp [amGet?, ha])
        simp only [amSet]
        rw [if_pos ha, countA_cons, countA_cons]
        simp only [hb]
        by_cases hv : v.isAnalyzed
        · simp [hv]
          omega
        · simp [hv]
      · have hold2 : ∀ w, amGet? rest k = some w → w.isAnalyzed = false := by
          intro w hw
          apply hold w
          simp [amGet?, ha, hw]
        simp only [amSet]
        rw [if_neg ha, countA_cons, countA_cons, ih hold2]
        omega

theorem sum_map_update (l : List String) (f g : String → Nat) (j : String) :
    l.Nodup → j ∈ l → (∀ x, x ≠ j → g x = f x) → g j = f j + 1 →
    (l.map g).sum = (l.map f).sum + 1 := by
  induction l with
  | nil => intro _ h _ _; simp at h
  | cons a l ih =>
      intro hnd hmem hne hj
      rw [List.nodup_cons] at hnd
      rcases List.mem_cons.mp hmem with h1 | h1
      · subst h1
        simp only [List.map_cons, List.sum_cons]
        have hmaps : l.map g = l.map f :=
          List.map_congr_left (fun x hx => hne x (fun hxj => hnd.1 (hxj ▸ hx)))
        rw [hmaps, hj]
        omega
      · have ha : a ≠ j := fun hh => hnd.1 (hh ▸ h1)
        simp only [List.map_cons, List.sum_cons]
        rw [hne a ha, ih hnd.2 h1 hne hj]
        omega

theorem foldl_min_le_init (l : List Nat) (a : Nat) : l.foldl min a ≤ a := by
  induction l generalizing a with
  | nil => exact Nat.le_refl a
  | cons x l ih =>
      rw [List.foldl_cons]
      calc l.foldl min (min a x) ≤ min a x := ih (min a x)
        _ ≤ a := min_le_left a x

theorem foldl_min_le_mem (l : List Nat) (a s : Nat) :
    s ∈ l → l.foldl min a ≤ s := by
  induction l generalizing a with
  | nil => intro h; simp at h
  | cons x l ih =>
      intro h
      rw [List.foldl_cons]
      rcases List.mem_cons.mp h with h1 | h1
      · subst h1
        calc l.foldl min (min a s) ≤ min a s := foldl_min_le_init l (min a s)
          _ ≤ s := min_le_right a s
      · exact ih (min a x) h1

theorem foldl_min_mem_cons (l : List Nat) (a : Nat) :
    l.foldl min a ∈ a :: l := by
  induction l generalizing a with
  | nil => simp
  | cons x l ih =>
      rw [List.foldl_cons]
      rcases List.mem_cons.mp (ih (min a x)) with h1 | h1
      · rcases le_total a x with h | h
        · rw [h1, min_eq_left h]
          exact List.mem_cons_self _ _
        · rw [h1, min_eq_right h]
          exact List.mem_cons_of_mem _ (List.mem_cons_self _ _)
      · exact List.mem_cons_of_mem _ (List.mem_cons_of_mem _ h1)

theorem le_foldl_max_init (l : List Nat) (a : Nat) : a ≤ l.foldl max a := by
  induction l generalizing a with
  | nil => exact Nat.le_refl a
  | cons x l ih =>
      rw [List.foldl_cons]
      calc a ≤ max a x := le_max_left a x
        _ ≤ l.foldl max (max a x) := ih (max a x)

theorem le_foldl_max_mem (l : List Nat) (a s : Nat) :
    s ∈ l → s ≤ l.foldl max a := by
  induction l generalizing a with
  | nil => intro h; simp at h
  | cons x l ih =>
      intro h
      rw [List.foldl_cons]
      rcases List.mem_cons.mp h with h1 | h1
      · subst h1
        calc s ≤ max a s := le_max_right a s
          _ ≤ l.foldl max (max a s) := le_foldl_max_init l (max a s)
      · exact ih (max a x) h1

theorem foldl_max_mem_cons (l : List Nat) (a : Nat) :
    l.foldl max a ∈ a :: l := by
  induction l generalizing a with
  | nil => simp
  | cons x l ih =>
      rw [List.foldl_cons]
      rcases List.mem_cons.mp (ih (max a x)) with h1 | h1
      · rcases le_total a x with h | h
        · rw [h1, max_eq_right h]
          exact List.mem_cons_of_mem _ (List.mem_cons_self _ _)
        · rw [h1, max_eq_left h]
          exact List.mem_cons_self _ _
      · exact List.mem_cons_of_mem _ (List.mem_cons_of_mem _ h1)

theorem ite_lt_eq_min (s m : Nat) : (if s < m then s else m) = min m s := by
  by_cases h : s < m
  · rw [if_pos h, min_eq_right (Nat.le_of_lt h)]
  · rw [if_neg h, min_eq_left (Nat.le_of_not_lt h)]

theorem ite_gt_eq_max (s m : Nat) : (if s > m then s else m) = max m s := by
  by_cases h : s > m
  · rw [if_pos h, max_eq_right (Nat.le_of_lt h)]
  · rw [if_neg h, max_eq_left (Nat.le_of_not_lt h)]

/-- The matching sentences of an arbitrary id list (generalization of
`matchingSentences` used for the loop induction). -/
def sentsOf (st : ContractState) (ct : String) (ids : List Nat) : List Nat :=
  ids.filterMap (fun i =>
    if chargeHit st ct i then some (lookupCase st i).sentence else none)

/-- The judge-and-charge matching sentences of an arbitrary id list
(generalization of `judgeSentences` used for the loop induction). -/
def jSentsOf (st : ContractState) (ct jid : String) (ids : List Nat) :
    List Nat :=
  ids.filterMap (fun i =>
    if judgeHit st ct jid i then some (lookupCase st i).sentence else none)

theorem sentsOf_cons_hit (st : ContractState) (ct : String) (i : Nat)
    (ids : List Nat) (hb : chargeHit st ct i = true) :
    sentsOf st ct (i :: ids) =
      (lookupCase st i).sentence :: sentsOf st ct ids := by
  unfold sentsOf
  refine List.filterMap_cons_some ?_
  show (if chargeHit st ct i then some (lookupCase st i).sentence
    else none) = _
  rw [if_pos hb]

theorem sentsOf_cons_miss (st : ContractState) (ct : String) (i : Nat)
    (ids : List Nat) (hb : ¬chargeHit st ct i = true) :
    sentsOf st ct (i :: ids) = sentsOf st ct ids := by
  unfold sentsOf
  refine List.filterMap_cons_none ?_
  show (if chargeHit st ct i then some (lookupCase st i).sentence
    else none) = _
  rw [if_neg hb]

theorem jSentsOf_cons_hit (st : ContractState) (ct jid : String) (i : Nat)
    (ids : List Nat) (hb : judgeHit st ct jid i = true) :
    jSentsOf st ct jid (i :: ids) =
      (lookupCase st i).sentence :: jSentsOf st ct jid ids := by
  unfold jSentsOf
  refine List.filterMap_cons_some ?_
  show (if judgeHit st ct jid i then some (lookupCase st i).sentence
    else none) = _
  rw [if_pos hb]

theorem jSentsOf_cons_miss (st : ContractState) (ct jid : String) (i : Nat)
    (ids : List Nat) (hb : ¬judgeHit st ct jid i = true) :
    jSentsOf st ct jid (i :: ids) = jSentsOf st ct jid ids := by
  unfold jSentsOf
  refine List.filterMap_cons_none ?_
  show (if judgeHit st ct jid i then some (lookupCase st i).sentence
    else none) = _
  rw [if_neg hb]

theorem matchingSentences_eq (st : ContractState) (ct : String) :
    matchingSentences st ct = sentsOf st ct (caseIds st) := rfl

theorem judgeSentences_eq (st : ContractState) (ct jid : String) :
    judgeSentences st ct jid = jSentsOf st ct jid (caseIds st) := rfl

theorem statsFold_eq (st : ContractState) (ct : String) (ids : List Nat) :
    ∀ t c mn mx : Nat,
    ids.foldl (statsStep st ct) (t, c, mn, mx) =
      (t + (sentsOf st ct ids).sum, c + (sentsOf st ct ids).length,
       (sentsOf st ct ids).foldl min mn, (sentsOf st ct ids).foldl max mx) := by
  induction ids with
  | nil => intro t c mn mx; simp [sentsOf]
  | cons i ids ih =>
      intro t c mn mx
      rw [List.foldl_cons]
      by_cases hb : chargeHit st ct i = true
      · have hstep : statsStep st ct (t, c, mn, mx) i =
            (t + (lookupCase st i).sentence, c + 1,
             if (lookupCase st i).sentence < mn then
               (lookupCase st i).sentence else mn,
             if (lookupCase st i).sentence > mx then
               (lookupCase st i).sentence else mx) := by
          unfold statsStep
          rw [if_pos hb]
        rw [hstep, ih, sentsOf_cons_hit st ct i ids hb]
        simp only [List.sum_cons, List.length_cons, List.foldl_cons,
          ite_lt_eq_min, ite_gt_eq_max, Prod.mk.injEq, and_true]
        omega
      · have hstep : statsStep st ct (t, c, mn, mx) i = (t, c, mn, mx) := by
          unfold statsStep
          rw [if_neg hb]
        rw [hstep, ih, sentsOf_cons_miss st ct i ids hb]

theorem dispFold_eq (st : ContractState) (ct jid : String) (ids : List Nat) :
    ∀ t c : Nat,
    ids.foldl (dispStep st ct jid) (t, c) =
      (t + (jSentsOf st ct jid ids).sum,
       c + (jSentsOf st ct jid ids).length) := by
  induction ids with
  | nil => intro t c; simp [jSentsOf]
  | cons i ids ih =>
      intro t c
      rw [List.foldl_cons]
      by_cases hb : judgeHit st ct jid i = true
      · have hstep : dispStep st ct jid (t, c) i =
            (t + (lookupCase st i).sentence, c + 1) := by
          unfold dispStep
          rw [if_pos hb]
        rw [hstep, ih, jSentsOf_cons_hit st ct jid i ids hb]
        simp only [List.sum_cons, List.length_cons, Prod.mk.injEq]
        omega
      · have hstep : dispStep st ct jid (t, c) i = (t, c) := by
          unfold dispStep
          rw [if_neg hb]
        rw [hstep, ih, jSentsOf_cons_miss st ct jid i ids hb]

theorem hashStr_pos (s : String) : 1 ≤ hashStr s := by
  unfold hashStr
  have hgen : ∀ (l : List Char) (a : Nat),
      1 ≤ a → 1 ≤ l.foldl (fun a c => a * 1114112 + c.toNat) a := by
    intro l
    induction l with
    | nil => intro a ha; exact ha
    | cons c l ih =>
        intro a ha
        rw [List.foldl_cons]
        apply ih
        have h1 : 1 * 1 ≤ a * 1114112 := Nat.mul_le_mul ha (by norm_num)
        omega
  exact hgen s.data 1 (Nat.le_refl 1)

theorem requestSentencingAnalysis_ok_iff (st : ContractState)
    (caseId reqId : Nat) (st2 : ContractState) :
    requestSentencingAnalysis st caseId reqId = .ok st2 ↔
      ((lookupCase st caseId).isAnalyzed = false ∧
       st2 = { st with
         requestToCaseId := amSet st.requestToCaseId reqId caseId }) := by
  unfold requestSentencingAnalysis
  by_cases h : (lookupCase st caseId).isAnalyzed = true
  · rw [if_pos h]
    simp [h]
  · rw [if_neg h]
    rw [Bool.not_eq_true] at h
    simp [h, eq_comm]

theorem analyzeCase_ok_iff (st : ContractState) (reqId : Nat)
    (charge : String) (sentence : Nat) (judgeId : String)
    (st2 : ContractState) :
    analyzeCase st reqId charge sentence judgeId true = .ok st2 ↔
      (lookupReq st reqId ≠ 0 ∧
       (lookupCase st (lookupReq st reqId)).isAnalyzed = false ∧
       st2 = stAfterAnalyze st reqId charge sentence judgeId) := by
  unfold analyzeCase
  by_cases h0 : lookupReq st reqId = 0
  · simp [h0]
  · rw [if_neg h0]
    by_cases h1 : (lookupCase st (lookupReq st reqId)).isAnalyzed = true
    · rw [if_pos h1]
      simp [h0, h1]
    · rw [if_neg h1]
      rw [Bool.not_eq_true] at h1
      simp [h0, h1, eq_comm]

theorem requestJudgeStatsDecryption_ok_iff (st : ContractState)
    (judgeId : String) (reqId : Nat) (st2 : ContractState) :
    requestJudgeStatsDecryption st judgeId reqId = .ok st2 ↔
      ((amGet? st.encryptedJudgeStats judgeId).isSome ∧
       st2 = { st with
         requestToCaseId :=
           amSet st.requestToCaseId reqId (hashStr judgeId) }) := by
  unfold requestJudgeStatsDecryption
  cases hc : amGet? st.encryptedJudgeStats judgeId with
  | none => simp [hc]
  | some v => simp [hc, eq_comm]

theorem decryptJudgeStats_ok_iff (st : ContractState) (reqId n : Nat)
    (st2 : ContractState) :
    decryptJudgeStats st reqId n true = .ok st2 ↔
      ((getJudgeFromHash st (lookupReq st reqId)).isSome ∧ st2 = st) := by
  unfold decryptJudgeStats
  cases hc : getJudgeFromHash st (lookupReq st reqId) with
  | none => simp [hc]
  | some j => simp [hc, eq_comm]

/-- The inductive invariant of the protocol: well-formedness of the storage
maps (distinct keys, case ids within `1 .. caseCount`), the correspondence
between initialized judge accumulators, `judgeList` membership and the
existence of an analyzed case citing the judge, default contents of
unanalyzed projections, positivity and boundedness of recorded pending
targets for case-analysis requests, and the aggregate counting invariant
`sumJudges = countAnalyzed`. -/
structure Inv (st : ContractState) : Prop where
  dcNodup : keysNodup st.decryptedCases
  dcBounds : ∀ p ∈ st.decryptedCases, 1 ≤ p.1 ∧ p.1 ≤ st.caseCount
  ecBounds : ∀ p ∈ st.encryptedCases, 1 ≤ p.1 ∧ p.1 ≤ st.caseCount
  jlNodup : st.judgeList.Nodup
  statsInit : ∀ j, (amGet? st.encryptedJudgeStats j).isSome ↔
      j ∈ st.judgeList
  reqNodup : keysNodup st.requestToCaseId
  reqPos : ∀ p ∈ st.requestToCaseId, 1 ≤ p.2
  caseReqRecorded : ∀ r ∈ st.caseReqIds, 1 ≤ lookupReq st r
  caseReqBounds : ∀ r ∈ st.caseReqIds, lookupReq st r ≤ st.caseCount
  judgeAnalyzed : ∀ j, (amGet? st.encryptedJudgeStats j).isSome ↔
      ∃ p ∈ st.decryptedCases, p.2.isAnalyzed = true ∧ p.2.judgeId = j
  unanalyzedDefault : ∀ p ∈ st.decryptedCases,
      p.2.isAnalyzed = false → p.2 = defaultDecrypted
  sumEq : sumJudges st = countAnalyzed st

theorem inv_initial : Inv initialState := by
  constructor
  all_goals simp [initialState, keysNodup, sumJudges, countAnalyzed, countA,
    lookupReq, amGet?]

theorem inv_submit (st : ContractState) (hc hs hj ts : Nat)
    (hinv : Inv st) : Inv (submitEncryptedCase st hc hs hj ts) := by
  obtain ⟨dcNodup, dcBounds, ecBounds, jlNodup, statsInit, reqNodup, reqPos,
    caseReqRecorded, caseReqBounds, judgeAnalyzed, unanalyzedDefault,
    sumEq⟩ := hinv
  have hdcn : amGet? st.decryptedCases (st.caseCount + 1) = none := by
    cases hcc : amGet? st.decryptedCases (st.caseCount + 1) with
    | none => rfl
    | some w =>
        have hb := dcBounds _ (amGet?_eq_some_mem _ _ _ hcc)
        simp at hb
  constructor
  all_goals simp only [submitEncryptedCase]
  case dcNodup => exact keysNodup_amSet _ _ _ dcNodup
  case dcBounds =>
      intro p hp
      rcases mem_amSet _ _ _ _ hp with h | h
      · subst h
        exact ⟨Nat.succ_le_succ (Nat.zero_le _), Nat.le_refl _⟩
      · have hb := dcBounds p h
        omega
  case ecBounds =>
      intro p hp
      rcases mem_amSet _ _ _ _ hp with h | h
      · subst h
        exact ⟨Nat.succ_le_succ (Nat.zero_le _), Nat.le_refl _⟩
      · have hb := ecBounds p h
        omega
  case jlNodup => exact jlNodup
  case statsInit => exact statsInit
  case reqNodup => exact reqNodup
  case reqPos => exact reqPos
  case caseReqRecorded => exact caseReqRecorded
  case caseReqBounds =>
      intro r hr
      have hb := caseReqBounds r hr
      show lookupReq st r ≤ st.caseCount + 1
      omega
  case judgeAnalyzed =>
      intro j
      rw [amSet_eq_append _ _ _ hdcn]
      constructor
      · intro h
        obtain ⟨p, hp, hprops⟩ := (judgeAnalyzed j).mp h
        exact ⟨p, List.mem_append_left _ hp, hprops⟩
      · rintro ⟨p, hp, hprops⟩
        rcases List.mem_append.mp hp with h | h
        · exact (judgeAnalyzed j).mpr ⟨p, h, hprops⟩
        · rw [List.mem_singleton] at h
          subst h
          simp [defaultDecrypted] at hprops
  case unanalyzedDefault =>
      intro p hp hfalse
      rcases mem_amSet _ _ _ _ hp with h | h
      · subst h
        rfl
      · exact unanalyzedDefault p h hfalse
  case sumEq =>
      show sumJudges st =
        countA (amSet st.decryptedCases (st.caseCount + 1) defaultDecrypted)
      rw [countA_amSet _ _ _ (by intro w hw; rw [hdcn] at hw; cases hw)]
      simp only [defaultDecrypted, Bool.false_eq_true, if_false]
      rw [Nat.add_zero]
      exact sumEq

theorem inv_requestAnalysis (st : ContractState) (caseId reqId : Nat)
    (stOk : ContractState)
    (hfresh : lookupReq st reqId = 0)
    (hhandles : handlesOk st caseId)
    (hrun : requestSentencingAnalysis st caseId reqId = .ok stOk)
    (hinv : Inv st) :
    Inv { stOk with caseReqIds := reqId :: stOk.caseReqIds } := by
  obtain ⟨hana, hst⟩ :=
    (requestSentencingAnalysis_ok_iff st caseId reqId stOk).mp hrun
  subst hst
  obtain ⟨dcNodup, dcBounds, ecBounds, jlNodup, statsInit, reqNodup, reqPos,
    caseReqRecorded, caseReqBounds, judgeAnalyzed, unanalyzedDefault,
    sumEq⟩ := hinv
  have hcb : 1 ≤ caseId ∧ caseId ≤ st.caseCount := by
    cases hec : amGet? st.encryptedCases caseId with
    | none =>
        exfalso
        unfold handlesOk lookupEnc at hhandles
        rw [hec] at hhandles
        simp [defaultEncrypted] at hhandles
    | some e =>
        have hb := ecBounds _ (amGet?_eq_some_mem _ _ _ hec)
        exact hb
  have hreqnone : amGet? st.requestToCaseId reqId = none := by
    cases hrq : amGet? st.requestToCaseId reqId with
    | none => rfl
    | some c =>
        have hp := reqPos _ (amGet?_eq_some_mem _ _ _ hrq)
        unfold lookupReq at hfresh
        rw [hrq] at hfresh
        simp at hfresh
        simp at hp
        omega
  have hnotcase : reqId ∉ st.caseReqIds := by
    intro hmem
    have h1 := caseReqRecorded reqId hmem
    omega
  constructor
  case dcNodup => exact dcNodup
  case dcBounds => exact dcBounds
  case ecBounds => exact ecBounds
  case jlNodup => exact jlNodup
  case statsInit => exact statsInit
  case reqNodup => exact keysNodup_amSet _ _ _ reqNodup
  case reqPos =>
      intro p hp
      rcases mem_amSet _ _ _ _ hp with h | h
      · subst h
        exact hcb.1
      · exact reqPos p h
  case caseReqRecorded =>
      intro r hr
      rcases List.mem_cons.mp hr with he | hm
      · subst he
        show 1 ≤ (amGet? (amSet st.requestToCaseId r caseId) r).getD 0
        rw [amGet?_amSet_self]
        exact hcb.1
      · have hne : r ≠ reqId := fun he => hnotcase (he ▸ hm)
        show 1 ≤ (amGet? (amSet st.requestToCaseId reqId caseId) r).getD 0
        rw [amGet?_amSet_ne _ _ _ _ hne]
        exact caseReqRecorded r hm
  case caseReqBounds =>
      intro r hr
      rcases List.mem_cons.mp hr with he | hm
      · subst he
        show (amGet? (amSet st.requestToCaseId r caseId) r).getD 0 ≤
          st.caseCount
        rw [amGet?_amSet_self]
        exact hcb.2
      · have hne : r ≠ reqId := fun he => hnotcase (he ▸ hm)
        show (amGet? (amSet st.requestToCaseId reqId caseId) r).getD 0 ≤
          st.caseCount
        rw [amGet?_amSet_ne _ _ _ _ hne]
        exact caseReqBounds r hm
  case judgeAnalyzed => exact judgeAnalyzed
  case unanalyzedDefault => exact unanalyzedDefault
  case sumEq => exact sumEq

theorem inv_statsRequest (st : ContractState) (judgeId : String)
    (reqId : Nat) (st2 : ContractState)
    (hfresh : lookupReq st reqId = 0)
    (hrun : requestJudgeStatsDecryption st judgeId reqId = .ok st2)
    (hinv : Inv st) : Inv st2 := by
  obtain ⟨hsome, hst⟩ :=
    (requestJudgeStatsDecryption_ok_iff st judgeId reqId st2).mp hrun
  subst hst
  obtain ⟨dcNodup, dcBounds, ecBounds, jlNodup, statsInit, reqNodup, reqPos,
    caseReqRecorded, caseReqBounds, judgeAnalyzed, unanalyzedDefault,
    sumEq⟩ := hinv
  have hnotcase : reqId ∉ st.caseReqIds := by
    intro hmem
    have h1 := caseReqRecorded reqId hmem
    omega
  constructor
  case dcNodup => exact dcNodup
  case dcBounds => exact dcBounds
  case ecBounds => exact ecBounds
  case jlNodup => exact jlNodup
  case statsInit => exact statsInit
  case reqNodup => exact keysNodup_amSet _ _ _ reqNodup
  case reqPos =>
      intro p hp
      rcases mem_amSet _ _ _ _ hp with h | h
      · subst h
        exact hashStr_pos judgeId
      · exact reqPos p h
  case caseReqRecorded =>
      intro r hr
      have hne : r ≠ reqId := fun he => hnotcase (he ▸ hr)
      show 1 ≤
        (amGet? (amSet st.requestToCaseId reqId (hashStr judgeId)) r).getD 0
      rw [amGet?_amSet_ne _ _ _ _ hne]
      exact caseReqRecorded r hr
  case caseReqBounds =>
      intro r hr
      have hne : r ≠ reqId := fun he => hnotcase (he ▸ hr)
      show (amGet? (amSet st.requestToCaseId reqId
        (hashStr judgeId)) r).getD 0 ≤ st.caseCount
      rw [amGet?_amSet_ne _ _ _ _ hne]
      exact caseReqBounds r hr
  case judgeAnalyzed => exact judgeAnalyzed
  case unanalyzedDefault => exact unanalyzedDefault
  case sumEq => exact sumEq

theorem inv_analyze (st : ContractState) (reqId : Nat) (charge : String)
    (sentence : Nat) (judgeId : String) (st2 : ContractState)
    (hreq : reqId ∈ st.caseReqIds)
    (hrun : analyzeCase st reqId charge sentence judgeId true = .ok st2)
    (hinv : Inv st) : Inv st2 := by
  obtain ⟨h0, h1, hst⟩ :=
    (analyzeCase_ok_iff st reqId charge sentence judgeId st2).mp hrun
  subst hst
  obtain ⟨dcNodup, dcBounds, ecBounds, jlNodup, statsInit, reqNodup, reqPos,
    caseReqRecorded, caseReqBounds, judgeAnalyzed, unanalyzedDefault,
    sumEq⟩ := hinv
  have hcb1 : 1 ≤ lookupReq st reqId := caseReqRecorded reqId hreq
  have hcb2 : lookupReq st reqId ≤ st.caseCount := caseReqBounds reqId hreq
  have holdw : ∀ w, amGet? st.decryptedCases (lookupReq st reqId) = some w →
      w.isAnalyzed = false := by
    intro w hw
    unfold lookupCase at h1
    rw [hw] at h1
    exact h1
  have hpne : ∀ p ∈ st.decryptedCases, p.2.isAnalyzed = true →
      p.1 ≠ lookupReq st reqId := by
    intro p hp hA he
    have hmem : (lookupReq st reqId, p.2) ∈ st.decryptedCases := by
      rw [← he]
      exact hp
    have hf := holdw p.2 (amGet?_eq_of_mem_nodup _ _ _ dcNodup hmem)
    rw [hA] at hf
    simp at hf
  have hs2 : (st.judgeList.map
      (fun x => (amGet? st.encryptedJudgeStats x).getD 0)).sum =
      countA st.decryptedCases := sumEq
  simp only [stAfterAnalyze]
  by_cases hjs : (amGet? st.encryptedJudgeStats judgeId).isSome = true
  · rw [if_pos hjs]
    constructor
    · exact keysNodup_amSet _ _ _ dcNodup
    · -- dcBounds
        intro p hp
        rcases mem_amSet _ _ _ _ hp with h | h
        · subst h
          exact ⟨hcb1, hcb2⟩
        · exact dcBounds p h
    · exact ecBounds
    · exact jlNodup
    · -- statsInit
        intro j2
        by_cases hj : j2 = judgeId
        · subst hj
          rw [amGet?_amSet_self]
          simp only [Option.isSome_some, true_iff]
          exact (statsInit j2).mp hjs
        · rw [amGet?_amSet_ne _ _ _ _ hj]
          exact statsInit j2
    · exact reqNodup
    · exact reqPos
    · exact caseReqRecorded
    · exact caseReqBounds
    · -- judgeAnalyzed
        intro j2
        by_cases hj : j2 = judgeId
        · subst hj
          rw [amGet?_amSet_self]
          simp only [Option.isSome_some, true_iff]
          exact ⟨(lookupReq st reqId,
            { charge := charge, sentence := sentence, judgeId := j2,
              isAnalyzed := true }), self_mem_amSet _ _ _, rfl, rfl⟩
        · rw [amGet?_amSet_ne _ _ _ _ hj]
          constructor
          · intro h
            obtain ⟨p, hp, hA, hJ⟩ := (judgeAnalyzed j2).mp h
            refine ⟨p, ?_, hA, hJ⟩
            exact (mem_amSet_iff _ _ _ _ dcNodup).mpr
              (Or.inr ⟨hp, hpne p hp hA⟩)
          · rintro ⟨p, hp, hA, hJ⟩
            rcases (mem_amSet_iff _ _ _ _ dcNodup).mp hp with h2 | ⟨h2, _⟩
            · exfalso
              apply hj
              rw [← hJ, h2]
            · exact (judgeAnalyzed j2).mpr ⟨p, h2, hA, hJ⟩
    · -- unanalyzedDefault
        intro p hp hfalse
        rcases mem_amSet _ _ _ _ hp with h | h
        · subst h
          simp at hfalse
        · exact unanalyzedDefault p h hfalse
    · -- sumEq
        show (st.judgeList.map
          (fun j => (amGet? (amSet st.encryptedJudgeStats judgeId
            ((amGet? st.encryptedJudgeStats judgeId).getD 0 + 1)) j).getD
              0)).sum =
          countA (amSet st.decryptedCases (lookupReq st reqId)
            { charge := charge, sentence := sentence, judgeId := judgeId,
              isAnalyzed := true })
        rw [countA_amSet _ _ _ holdw]
        have hsum := sum_map_update st.judgeList
          (fun x => (amGet? st.encryptedJudgeStats x).getD 0)
          (fun x => (amGet? (amSet st.encryptedJudgeStats judgeId
            ((amGet? st.encryptedJudgeStats judgeId).getD 0 + 1)) x).getD 0)
          judgeId jlNodup ((statsInit judgeId).mp hjs)
          (fun x hx => by simp only [amGet?_amSet_ne _ _ _ _ hx])
          (by simp only [amGet?_amSet_self, Option.getD_some])
        rw [hsum]
        simp only [if_pos]
        omega
  · rw [if_neg hjs]
    have hjnotin : judgeId ∉ st.judgeList :=
      fun hmem => hjs ((statsInit judgeId).mpr hmem)
    have hstats2 : amSet (amSet st.encryptedJudgeStats judgeId 0) judgeId
        ((amGet? (amSet st.encryptedJudgeStats judgeId 0) judgeId).getD 0
          + 1) = amSet st.encryptedJudgeStats judgeId 1 := by
      rw [amGet?_amSet_self, amSet_amSet_self]
      rfl
    rw [hstats2]
    constructor
    · exact keysNodup_amSet _ _ _ dcNodup
    · -- dcBounds
        intro p hp
        rcases mem_amSet _ _ _ _ hp with h | h
        · subst h
          exact ⟨hcb1, hcb2⟩
        · exact dcBounds p h
    · exact ecBounds
    · -- jlNodup
        refine List.Nodup.append jlNodup (List.nodup_singleton judgeId) ?_
        intro x hx hx2
        rw [List.mem_singleton] at hx2
        subst hx2
        exact hjnotin hx
    · -- statsInit
        intro j2
        by_cases hj : j2 = judgeId
        · subst hj
          rw [amGet?_amSet_self]
          simp only [Option.isSome_some, true_iff]
          exact List.mem_append_right _ (List.mem_singleton.mpr rfl)
        · rw [amGet?_amSet_ne _ _ _ _ hj]
          rw [statsInit j2]
          constructor
          · exact fun h => List.mem_append_left _ h
          · intro h
            rcases List.mem_append.mp h with h2 | h2
            · exact h2
            · rw [List.mem_singleton] at h2
              exact absurd h2 hj
    · exact reqNodup
    · exact reqPos
    · exact caseReqRecorded
    · exact caseReqBounds
    · -- judgeAnalyzed
        intro j2
        by_cases hj : j2 = judgeId
        · subst hj
          rw [amGet?_amSet_self]
          simp only [Option.isSome_some, true_iff]
          exact ⟨(lookupReq st reqId,
            { charge := charge, sentence := sentence, judgeId := j2,
              isAnalyzed := true }), self_mem_amSet _ _ _, rfl, rfl⟩
        · rw [amGet?_amSet_ne _ _ _ _ hj]
          constructor
          · intro h
            obtain ⟨p, hp, hA, hJ⟩ := (judgeAnalyzed j2).mp h
            refine ⟨p, ?_, hA, hJ⟩
            exact (mem_amSet_iff _ _ _ _ dcNodup).mpr
              (Or.inr ⟨hp, hpne p hp hA⟩)
          · rintro ⟨p, hp, hA, hJ⟩
            rcases (mem_amSet_iff _ _ _ _ dcNodup).mp hp with h2 | ⟨h2, _⟩
            · exfalso
              apply hj
              rw [← hJ, h2]
            · exact (judgeAnalyzed j2).mpr ⟨p, h2, hA, hJ⟩
    · -- unanalyzedDefault
        intro p hp hfalse
        rcases mem_amSet _ _ _ _ hp with h | h
        · subst h
          simp at hfalse
        · exact unanalyzedDefault p h hfalse
    · -- sumEq
        show ((st.judgeList ++ [judgeId]).map
          (fun j => (amGet? (amSet st.encryptedJudgeStats judgeId 1)
            j).getD 0)).sum =
          countA (amSet st.decryptedCases (lookupReq st reqId)
            { charge := charge, sentence := sentence, judgeId := judgeId,
              isAnalyzed := true })
        rw [countA_amSet _ _ _ holdw]
        rw [List.map_append, List.sum_append]
        have hmapeq : st.judgeList.map
            (fun j => (amGet? (amSet st.encryptedJudgeStats judgeId 1)
              j).getD 0) =
            st.judgeList.map
              (fun x => (amGet? st.encryptedJudgeStats x).getD 0) :=
          List.map_congr_left (fun x hx => by
            have hxne : x ≠ judgeId := fun he => hjnotin (by rw [← he]; exact hx)
            simp only [amGet?_amSet_ne _ _ _ _ hxne])
        rw [hmapeq]
        simp only [List.map_cons, List.map_nil, List.sum_cons, List.sum_nil,
          amGet?_amSet_self, Option.getD_some, if_pos]
        omega

theorem inv_statsFinalize (st : ContractState) (reqId n : Nat)
    (st2 : ContractState)
    (hrun : decryptJudgeStats st reqId n true = .ok st2)
    (hinv : Inv st) : Inv st2 := by
  obtain ⟨hsome, hst⟩ := (decryptJudgeStats_ok_iff st reqId n st2).mp hrun
  subst hst
  exact hinv

theorem inv_step (st st2 : ContractState) (hinv : Inv st)
    (hs : Step st st2) : Inv st2 := by
  cases hs with
  | submit hc hsent hj ts s2 heq =>
      subst heq
      exact inv_submit _ _ _ _ _ hinv
  | requestAnalysis caseId reqId stOk s2 hfresh hhandles hrun heq =>
      subst heq
      exact inv_requestAnalysis _ _ _ _ hfresh hhandles hrun hinv
  | analyze reqId charge sentence judgeId s2 hreq hrun =>
      exact inv_analyze _ _ _ _ _ _ hreq hrun hinv
  | statsRequest judgeId reqId s2 hfresh hrun =>
      exact inv_statsRequest _ _ _ _ hfresh hrun hinv
  | statsFinalize reqId n s2 hrun =>
      exact inv_statsFinalize _ _ _ _ hrun hinv

theorem inv_reachable (st : ContractState) (h : Reachable st) : Inv st := by
  induction h with
  | init => exact inv_initial
  | step h hs ih => exact inv_step _ _ ih hs

/-- Scenario states: three cases are submitted (with arbitrary nonzero
ciphertext handles), analysis is requested for each (oracle request ids 11,
12, 13), and the oracle finalizes them as charge "Theft" with sentences 10,
20, 30 months for judges "A", "A", "B". -/
def sc0 : ContractState := initialState

def sc1 : ContractState := submitEncryptedCase sc0 1 2 3 100

def sc2 : ContractState := submitEncryptedCase sc1 4 5 6 101

def sc3 : ContractState := submitEncryptedCase sc2 7 8 9 102

def sc4 : ContractState :=
  { applyTx sc3 (requestSentencingAnalysis sc3 1 11) with
    caseReqIds := 11 :: sc3.caseReqIds }

def sc5 : ContractState :=
  { applyTx sc4 (requestSentencingAnalysis sc4 2 12) with
    caseReqIds := 12 :: sc4.caseReqIds }

def sc6 : ContractState :=
  { applyTx sc5 (requestSentencingAnalysis sc5 3 13) with
    caseReqIds := 13 :: sc5.caseReqIds }

def sc7 : ContractState := applyTx sc6 (analyzeCase sc6 11 "Theft" 10 "A" true)

def sc8 : ContractState := applyTx sc7 (analyzeCase sc7 12 "Theft" 20 "A" true)

def sc9 : ContractState := applyTx sc8 (analyzeCase sc8 13 "Theft" 30 "B" true)

def sc10 : ContractState :=
  applyTx sc9 (requestJudgeStatsDecryption sc9 "A" 21)

theorem step01 : Step sc0 sc1 := Step.submit sc0 1 2 3 100 sc1 rfl

theorem step12 : Step sc1 sc2 := Step.submit sc1 4 5 6 101 sc2 rfl

theorem step23 : Step sc2 sc3 := Step.submit sc2 7 8 9 102 sc3 rfl

theorem step34 : Step sc3 sc4 :=
  Step.requestAnalysis sc3 1 11 (applyTx sc3 (requestSentencingAnalysis sc3 1 11))
    sc4 rfl (by decide) rfl rfl

theorem step45 : Step sc4 sc5 :=
  Step.requestAnalysis sc4 2 12 (applyTx sc4 (requestSentencingAnalysis sc4 2 12))
    sc5 rfl (by decide) rfl rfl

theorem step56 : Step sc5 sc6 :=
  Step.requestAnalysis sc5 3 13 (applyTx sc5 (requestSentencingAnalysis sc5 3 13))
    sc6 rfl (by decide) rfl rfl

theorem step67 : Step sc6 sc7 :=
  Step.analyze sc6 11 "Theft" 10 "A" sc7 (by decide) rfl

theorem step78 : Step sc7 sc8 :=
  Step.analyze sc7 12 "Theft" 20 "A" sc8 (by decide) rfl

theorem step89 : Step sc8 sc9 :=
  Step.analyze sc8 13 "Theft" 30 "B" sc9 (by decide) rfl

theorem step910 : Step sc9 sc10 :=
  Step.statsRequest sc9 "A" 21 sc10 rfl rfl

theorem reachable_sc9 : Reachable sc9 :=
  ((((((((Reachable.init.step step01).step step12).step step23).step
    step34).step step45).step step56).step step67).step step78).step step89

theorem reachable_sc10 : Reachable sc10 := reachable_sc9.step step910

/-- C1: In every reachable system state, the sum over all judges of the
decrypted values of the JudgeAccumulator counts (`encryptedJudgeStats`,
homomorphic add modelled as integer addition, lazily initialized to
encrypted zero on the first analyzed case citing the judge) equals the
number of CaseRecords whose projection is analyzed. -/
theorem C1_judge_accumulator_invariant (st : ContractState)
    (h : Reachable st) : sumJudges st = countAnalyzed st :=
  (inv_reachable st h).sumEq

theorem C1_judge_accumulator_invariant_witness :
    Reachable sc9 ∧ sumJudges sc9 = countAnalyzed sc9 ∧ sumJudges sc9 = 3 :=
  ⟨reachable_sc9, C1_judge_accumulator_invariant sc9 reachable_sc9,
    by decide⟩

/-- C2: If proof verification fails during the `analyzeCase` callback (for
a recorded pending request whose target is not yet analyzed), the call
fails with `ProofInvalid` and performs no mutation: the resulting state is
the pre-state, the target projection is unchanged (hence still unanalyzed)
and the judge accumulators are unchanged. -/
theorem C2_proof_invalid_no_mutation (st : ContractState) (reqId : Nat)
    (charge : String) (sentence : Nat) (judgeId : String)
    (h0 : lookupReq st reqId ≠ 0)
    (h1 : (lookupCase st (lookupReq st reqId)).isAnalyzed = false) :
    analyzeCase st reqId charge sentence judgeId false =
      .error .ProofInvalid ∧
    applyTx st (analyzeCase st reqId charge sentence judgeId false) = st ∧
    getDecryptedCase
      (applyTx st (analyzeCase st reqId charge sentence judgeId false))
      (lookupReq st reqId) = getDecryptedCase st (lookupReq st reqId) ∧
    (applyTx st
      (analyzeCase st reqId charge sentence judgeId false)).encryptedJudgeStats
      = st.encryptedJudgeStats := by
  have h1' : ¬((lookupCase st (lookupReq st reqId)).isAnalyzed = true) := by
    rw [h1]
    decide
  have herr : analyzeCase st reqId charge sentence judgeId false =
      .error .ProofInvalid := by
    unfold analyzeCase
    rw [if_neg h0, if_neg h1', if_pos rfl]
  refine ⟨herr, ?_, ?_, ?_⟩
  · rw [herr]
    rfl
  · rw [herr]
    rfl
  · rw [herr]
    rfl

theorem C2_proof_invalid_no_mutation_witness :
    lookupReq sc4 11 ≠ 0 ∧
    (lookupCase sc4 (lookupReq sc4 11)).isAnalyzed = false ∧
    analyzeCase sc4 11 "X" 5 "J" false = .error .ProofInvalid ∧
    applyTx sc4 (analyzeCase sc4 11 "X" 5 "J" false) = sc4 :=
  ⟨by decide, by decide,
    (C2_proof_invalid_no_mutation sc4 11 "X" 5 "J" (by decide) (by decide)).1,
    (C2_proof_invalid_no_mutation sc4 11 "X" 5 "J" (by decide)
      (by decide)).2.1⟩

/-- C3 counterexample: after the valid finalize of request 11 (state
`sc9`), a second `analyzeCase` with the same requestId fails with
`AlreadyAnalyzed`, not `InvalidRequest` as the claim states, because the
pending entry `requestToCaseId[11] = 1` is never deleted. -/
theorem C3_counterexample :
    analyzeCase sc9 11 "Theft" 10 "A" true = .error .AlreadyAnalyzed ∧
    Err.AlreadyAnalyzed ≠ Err.InvalidRequest ∧
    lookupReq sc9 11 = 1 :=
  ⟨rfl, by decide, rfl⟩

/-- C3 (amended): after a valid finalize succeeds for a case, a subsequent
`requestSentencingAnalysis` on the same caseId fails with
`AlreadyAnalyzed`, and a second finalize with the same requestId also
fails — but with `AlreadyAnalyzed` rather than `InvalidRequest`, because
the pending entry is never pruned (it still maps the requestId to the same
caseId); re-consumption is blocked only by the target's analyzed flag. -/
theorem C3_after_finalize (st : ContractState) (reqId : Nat)
    (charge : String) (sentence : Nat) (judgeId : String)
    (st2 : ContractState) (reqId2 : Nat) (charge2 : String)
    (sentence2 : Nat) (judgeId2 : String) (pk : Bool)
    (hrun : analyzeCase st reqId charge sentence judgeId true = .ok st2) :
    requestSentencingAnalysis st2 (lookupReq st reqId) reqId2 =
      .error .AlreadyAnalyzed ∧
    analyzeCase st2 reqId charge2 sentence2 judgeId2 pk =
      .error .AlreadyAnalyzed ∧
    lookupReq st2 reqId = lookupReq st reqId := by
  obtain ⟨h0, h1, hst⟩ :=
    (analyzeCase_ok_iff st reqId charge sentence judgeId st2).mp hrun
  subst hst
  have hreqsame : (stAfterAnalyze st reqId charge sentence
      judgeId).requestToCaseId = st.requestToCaseId := by
    unfold stAfterAnalyze
    by_cases hjs : (amGet? st.encryptedJudgeStats judgeId).isSome = true
    · rw [if_pos hjs]
    · rw [if_neg hjs]
  have hdc : (stAfterAnalyze st reqId charge sentence
      judgeId).decryptedCases = amSet st.decryptedCases (lookupReq st reqId)
      { charge := charge, sentence := sentence, judgeId := judgeId,
        isAnalyzed := true } := by
    unfold stAfterAnalyze
    by_cases hjs : (amGet? st.encryptedJudgeStats judgeId).isSome = true
    · rw [if_pos hjs]
    · rw [if_neg hjs]
  have hlr : lookupReq (stAfterAnalyze st reqId charge sentence judgeId)
      reqId = lookupReq st reqId := by
    unfold lookupReq
    rw [hreqsame]
  have hana : (lookupCase (stAfterAnalyze st reqId charge sentence judgeId)
      (lookupReq st reqId)).isAnalyzed = true := by
    unfold lookupCase
    rw [hdc, amGet?_amSet_self]
    rfl
  refine ⟨?_, ?_, hlr⟩
  · unfold requestSentencingAnalysis
    rw [if_pos hana]
  · unfold analyzeCase
    rw [hlr, if_neg h0, if_pos hana]

theorem C3_after_finalize_witness :
    requestSentencingAnalysis sc9 (lookupReq sc8 13) 99 =
      .error .AlreadyAnalyzed ∧
    analyzeCase sc9 13 "X" 1 "J" true = .error .AlreadyAnalyzed ∧
    lookupReq sc9 13 = lookupReq sc8 13 :=
  C3_after_finalize sc8 13 "Theft" 30 "B" sc9 99 "X" 1 "J" true rfl

/-- C4 counterexample: in the deployment state (`caseCount = 0`), a
request for the never-assigned caseId `5` does not fail with `NotFound`;
it succeeds and records the pending entry `requestToCaseId[1] = 5`. -/
theorem C4_counterexample :
    requestSentencingAnalysis sc0 5 1 ≠ .error .NotFound ∧
    requestSentencingAnalysis sc0 5 1 =
      .ok { sc0 with requestToCaseId := [(1, 5)] } ∧
    sc0.caseCount = 0 :=
  ⟨fun h => Except.noConfusion h, rfl, rfl⟩

/-- C4 (amended): `requestSentencingAnalysis` performs no existence check:
for any caseId whose projection is not analyzed — including caseIds never
assigned by submit — it succeeds, forwards the (possibly uninitialized)
handles to the oracle and records a PendingRequest mapping the request id
to that caseId; it fails (with `AlreadyAnalyzed`) only when the projection
is analyzed.  `NotFound` is never raised. -/
theorem C4_request_no_existence_check (st : ContractState)
    (caseId reqId : Nat) :
    (¬(lookupCase st caseId).isAnalyzed = true →
      requestSentencingAnalysis st caseId reqId =
        .ok { st with
          requestToCaseId := amSet st.requestToCaseId reqId caseId } ∧
      lookupReq { st with
        requestToCaseId := amSet st.requestToCaseId reqId caseId } reqId =
        caseId) ∧
    ((lookupCase st caseId).isAnalyzed = true →
      requestSentencingAnalysis st caseId reqId =
        .error .AlreadyAnalyzed) := by
  constructor
  · intro h
    constructor
    · unfold requestSentencingAnalysis
      rw [if_neg h]
    · show (amGet? (amSet st.requestToCaseId reqId caseId) reqId).getD 0 =
        caseId
      rw [amGet?_amSet_self]
      rfl
  · intro h
    unfold requestSentencingAnalysis
    rw [if_pos h]

theorem C4_request_no_existence_check_witness :
    requestSentencingAnalysis sc0 5 1 =
      .ok { sc0 with requestToCaseId := amSet sc0.requestToCaseId 1 5 } ∧
    lookupReq { sc0 with
      requestToCaseId := amSet sc0.requestToCaseId 1 5 } 1 = 5 :=
  (C4_request_no_existence_check sc0 5 1).1 (by decide)

/-- C5 counterexample: the contract's `calculateSentencingStats` returns a
three-tuple, not the claimed four-tuple with a count: in the scenario
state the three matching analyzed Theft cases (count 3) yield the result
`(20, 10, 30)` and no component of the result equals the count 3. -/
theorem C5_counterexample :
    calculateSentencingStats sc9 "Theft" = (20, 10, 30) ∧
    (matchingSentences sc9 "Theft").length = 3 ∧
    (20 : Nat) ≠ 3 ∧ (10 : Nat) ≠ 3 ∧ (30 : Nat) ≠ 3 :=
  ⟨rfl, rfl, by decide, by decide, by decide⟩

/-- C5 (amended): `calculateSentencingStats` returns the three-tuple
`(avg, min, max)` (no count component) computed over analyzed cases whose
charge equals `chargeType` exactly and case-sensitively: `avg` is the
floor average of the matching sentences (0 when none match), and min/max
are the fold of `min`/`max` over the matching sentences started at the
sentinel `type(uint256).max` resp. `0`, hence lower/upper bounds of every
matching sentence; on the three analyzed Theft cases with sentences 10,
20, 30 the result is `(20, 10, 30)`. -/
theorem C5_stats_characterization (st : ContractState) (ct : String) :
    calculateSentencingStats st ct =
      (avgOf (matchingSentences st ct),
       (matchingSentences st ct).foldl min UMAX,
       (matchingSentences st ct).foldl max 0) ∧
    (∀ s ∈ matchingSentences st ct,
      (matchingSentences st ct).foldl min UMAX ≤ s ∧
      s ≤ (matchingSentences st ct).foldl max 0) ∧
    (matchingSentences st ct).foldl min UMAX ∈
      UMAX :: matchingSentences st ct ∧
    (matchingSentences st ct).foldl max 0 ∈
      0 :: matchingSentences st ct ∧
    calculateSentencingStats sc9 "Theft" = (20, 10, 30) := by
  refine ⟨?_, ?_, foldl_min_mem_cons _ _, foldl_max_mem_cons _ _, rfl⟩
  · unfold calculateSentencingStats avgOf
    rw [statsFold_eq st ct (caseIds st) 0 0 UMAX 0, matchingSentences_eq]
    simp only [Nat.zero_add]
  · exact fun s hs =>
      ⟨foldl_min_le_mem _ _ _ hs, le_foldl_max_mem _ _ _ hs⟩

theorem C5_stats_characterization_witness :
    calculateSentencingStats sc9 "Theft" =
      (avgOf (matchingSentences sc9 "Theft"),
       (matchingSentences sc9 "Theft").foldl min UMAX,
       (matchingSentences sc9 "Theft").foldl max 0) ∧
    (matchingSentences sc9 "Theft").foldl min UMAX ≤ 10 ∧
    10 ≤ (matchingSentences sc9 "Theft").foldl max 0 :=
  ⟨(C5_stats_characterization sc9 "Theft").1,
    ((C5_stats_characterization sc9 "Theft").2.1 10 (by decide)).1,
    ((C5_stats_characterization sc9 "Theft").2.1 10 (by decide)).2⟩

/-- C6: evaluation of the code at the failing input: for a charge type
with zero matching analyzed cases ("Fraud", both in the scenario state and
the deployment state) `calculateSentencingStats` returns
`(0, type(uint256).max, 0)` — it leaks the numeric sentinel
`2 ^ 256 - 1` as the minimum instead of an explicit empty-result
marker. -/
theorem C6_sentinel_leak :
    calculateSentencingStats sc9 "Fraud" = (0, UMAX, 0) ∧
    calculateSentencingStats sc0 "Fraud" = (0, UMAX, 0) ∧
    UMAX = 2 ^ 256 - 1 ∧ 0 < UMAX ∧
    (matchingSentences sc9 "Fraud").length = 0 :=
  ⟨rfl, rfl, rfl, by decide, rfl⟩

/-- C7: `detectSentencingDisparities` returns one `(judgeId, avgSentence)`
pair per input judge id, in exactly the input order (duplicates processed
independently), where `avgSentence` is the floor average over analyzed
cases matching both the charge type and the judge, and 0 when no case
matches; on the scenario state, `["A", "B"]` yields
`[("A", 15), ("B", 30)]` and `["A", "B", "A"]` yields
`[("A", 15), ("B", 30), ("A", 15)]`. -/
theorem C7_disparities_characterization (st : ContractState) (ct : String)
    (judgeIds : List String) :
    detectSentencingDisparities st ct judgeIds =
      judgeIds.map (fun jid => (jid, avgOf (judgeSentences st ct jid))) ∧
    (detectSentencingDisparities st ct judgeIds).length =
      judgeIds.length ∧
    detectSentencingDisparities sc9 "Theft" ["A", "B"] =
      [("A", 15), ("B", 30)] ∧
    detectSentencingDisparities sc9 "Theft" ["A", "B", "A"] =
      [("A", 15), ("B", 30), ("A", 15)] := by
  have hmain : detectSentencingDisparities st ct judgeIds =
      judgeIds.map (fun jid => (jid, avgOf (judgeSentences st ct jid))) := by
    unfold detectSentencingDisparities
    refine List.map_congr_left ?_
    intro jid hj
    simp only []
    rw [dispFold_eq st ct jid (caseIds st) 0 0]
    unfold avgOf
    rw [judgeSentences_eq]
    simp only [Nat.zero_add]
  refine ⟨hmain, ?_, rfl, rfl⟩
  rw [hmain]
  exact List.length_map _ _

/-- C8: evaluation of the code at the failing behavior: a successful
`decryptJudgeStats` callback returns the contract state exactly unchanged
and its result does not depend on the decoded count `n` — the decoded
decrypted count is silently discarded, neither stored nor returned. -/
theorem C8_decrypted_count_discarded (st : ContractState)
    (reqId n n2 : Nat)
    (h : (getJudgeFromHash st (lookupReq st reqId)).isSome = true) :
    decryptJudgeStats st reqId n true = .ok st ∧
    decryptJudgeStats st reqId n true =
      decryptJudgeStats st reqId n2 true := by
  obtain ⟨j, hj⟩ := Option.isSome_iff_exists.mp h
  constructor
  · simp [decryptJudgeStats, hj]
  · simp [decryptJudgeStats, hj]

theorem C8_decrypted_count_discarded_witness :
    decryptJudgeStats sc10 21 2 true = .ok sc10 ∧
    decryptJudgeStats sc10 21 2 true = decryptJudgeStats sc10 21 7 true :=
  C8_decrypted_count_discarded sc10 21 2 7 (by decide)

/-- C9: in any reachable state, `requestJudgeStatsDecryption` fails with
`NotFound` exactly when no accumulator exists for the judge, which (by the
reachability invariant) is exactly when no case citing the judge has ever
been finalized as analyzed; otherwise it succeeds and records a pending
entry mapping the request id to the hash-derived key of the judge id. -/
theorem C9_stats_request_notfound_iff (st : ContractState) (j : String)
    (r : Nat) (h : Reachable st) :
    (requestJudgeStatsDecryption st j r = .error .NotFound ↔
      ¬∃ p ∈ st.decryptedCases, p.2.isAnalyzed = true ∧ p.2.judgeId = j) ∧
    ((∃ p ∈ st.decryptedCases, p.2.isAnalyzed = true ∧ p.2.judgeId = j) →
      requestJudgeStatsDecryption st j r =
        .ok { st with
          requestToCaseId := amSet st.requestToCaseId r (hashStr j) } ∧
      lookupReq { st with
        requestToCaseId := amSet st.requestToCaseId r (hashStr j) } r =
        hashStr j) := by
  have hJA := (inv_reachable st h).judgeAnalyzed j
  constructor
  · constructor
    · intro herr hex
      have hsome := hJA.mpr hex
      obtain ⟨v, hv⟩ := Option.isSome_iff_exists.mp hsome
      unfold requestJudgeStatsDecryption at herr
      rw [hv] at herr
      exact Except.noConfusion herr
    · intro hnex
      cases hv : amGet? st.encryptedJudgeStats j with
      | none =>
          unfold requestJudgeStatsDecryption
          rw [hv]
      | some v =>
          exfalso
          refine hnex (hJA.mp ?_)
          rw [hv]
          rfl
  · intro hex
    have hsome := hJA.mpr hex
    obtain ⟨v, hv⟩ := Option.isSome_iff_exists.mp hsome
    constructor
    · unfold requestJudgeStatsDecryption
      rw [hv]
    · show (amGet? (amSet st.requestToCaseId r (hashStr j)) r).getD 0 =
        hashStr j
      rw [amGet?_amSet_self]
      rfl

theorem C9_stats_request_notfound_iff_witness :
    requestJudgeStatsDecryption sc9 "A" 21 =
      .ok { sc9 with
        requestToCaseId := amSet sc9.requestToCaseId 21 (hashStr "A") } ∧
    lookupReq { sc9 with
      requestToCaseId := amSet sc9.requestToCaseId 21 (hashStr "A") } 21 =
      hashStr "A" :=
  (C9_stats_request_notfound_iff sc9 "A" 21 reachable_sc9).2 (by decide)

/-- C10: `getDecryptedCase` is total and never fails: in any reachable
state, for a caseId never assigned by submit (`caseId = 0` or
`caseId > caseCount`) it returns exactly `("", 0, "", false)`, which is
identical to the projection of a just-submitted not-yet-analyzed case (and
in fact of every unanalyzed projection), so a caller cannot distinguish
an unknown case from a pending one through this view. -/
theorem C10_getCase_unknown_indistinguishable (st : ContractState)
    (caseId hc hs2 hj ts : Nat) (h : Reachable st)
    (hun : caseId = 0 ∨ st.caseCount < caseId) :
    getDecryptedCase st caseId = ("", 0, "", false) ∧
    getDecryptedCase (submitEncryptedCase st hc hs2 hj ts)
      (st.caseCount + 1) = ("", 0, "", false) ∧
    (∀ i, (lookupCase st i).isAnalyzed = false →
      getDecryptedCase st i = ("", 0, "", false)) := by
  have inv := inv_reachable st h
  have hdefault : ∀ i, (lookupCase st i).isAnalyzed = false →
      lookupCase st i = defaultDecrypted := by
    intro i hi
    unfold lookupCase at hi ⊢
    cases hv : amGet? st.decryptedCases i with
    | none => rfl
    | some w =>
        rw [hv] at hi
        exact inv.unanalyzedDefault (i, w) (amGet?_eq_some_mem _ _ _ hv) hi
  have hnone : amGet? st.decryptedCases caseId = none := by
    cases hv : amGet? st.decryptedCases caseId with
    | none => rfl
    | some w =>
        exfalso
        have hb := inv.dcBounds _ (amGet?_eq_some_mem _ _ _ hv)
        have hb1 : 1 ≤ caseId := hb.1
        have hb2 : caseId ≤ st.caseCount := hb.2
        rcases hun with h0 | h0 <;> omega
  refine ⟨?_, ?_, ?_⟩
  · unfold getDecryptedCase lookupCase
    rw [hnone]
    rfl
  · have hself : amGet?
        (submitEncryptedCase st hc hs2 hj ts).decryptedCases
        (st.caseCount + 1) = some defaultDecrypted := by
      show amGet? (amSet st.decryptedCases (st.caseCount + 1)
        defaultDecrypted) (st.caseCount + 1) = _
      exact amGet?_amSet_self _ _ _
    unfold getDecryptedCase lookupCase
    rw [hself]
    rfl
  · intro i hi
    unfold getDecryptedCase
    rw [hdefault i hi]
    rfl

theorem C10_getCase_unknown_indistinguishable_witness :
    (99 = 0 ∨ sc9.caseCount < 99) ∧
    getDecryptedCase sc9 99 = ("", 0, "", false) ∧
    getDecryptedCase (submitEncryptedCase sc9 1 1 1 0)
      (sc9.caseCount + 1) = ("", 0, "", false) :=
  ⟨Or.inr (by decide),
    (C10_getCase_unknown_indistinguishable sc9 99 1 1 1 0 reachable_sc9
      (Or.inr (by decide))).1,
    (C10_getCase_unknown_indistinguishable sc9 99 1 1 1 0 reachable_sc9
      (Or.inr (by decide))).2.1⟩

end SentencingFHE
